import Mathlib

/-!
Verification development for an 8-puzzle solver written in Rust.

The board is a 3x3 sliding-tile puzzle stored as a compact 32-bit integer:
each tile 1..8 (internally 0..7) owns a 4-bit field holding the cell index
(0..8) where that tile currently sits; the empty cell is the index absent
from the association.  We embed the 32-bit word as a natural number smaller
than 2^32 and mirror every bit operation of the source.  Fallible
operations are embedded with explicit outcome types: the Rust move
operation returns a Result and may also hit an internal assertion, so its
embedding distinguishes success, the illegal-move error, and the assertion
failure.  The generic search engine is embedded with an explicit solver
state record, the frontier policy as a record of functions on lists, and
fuel for the unbounded search loop (a run that returns within the fuel
agrees with the source loop).
-/

/-- Directions in which the empty cell can travel (board.rs, enum Direction). -/
inductive Direction where
  | Up
  | Down
  | Left
  | Right
deriving DecidableEq, Repr

open Direction

/-- Array of all movement directions (board.rs, ALL_DIRECTIONS). -/
def ALL_DIRECTIONS : List Direction := [Up, Down, Left, Right]

/-- Bits per tile field (board.rs, TILE_BIT_SIZE). -/
def TILE_BIT_SIZE : Nat := 4

/-- Side length of the square board (board.rs, BOARD_SIDE). -/
def BOARD_SIDE : Nat := 3

/-- Total number of cells (board.rs, BOARD_AREA). -/
def BOARD_AREA : Nat := 9

/-- Extract the 4-bit position field of tile `value` (board.rs, Board::get_pos).
The source shifts the 32-bit word right by 4*value and takes the low nibble. -/
def get_pos (b : Nat) (value : Nat) : Nat :=
  (b >>> (TILE_BIT_SIZE * value)) % (1 <<< TILE_BIT_SIZE)

/-- Store position `p` into the 4-bit field of tile `val`
(board.rs, Board::set_value): clear the field with the complemented mask,
then or in the new position.  Complement is 32-bit complement. -/
def set_value (b : Nat) (p : Nat) (val : Nat) : Nat :=
  let ones : Nat := (1 <<< TILE_BIT_SIZE) - 1
  let mask : Nat := ones <<< (TILE_BIT_SIZE * val)
  (b &&& ((2 ^ 32 - 1) ^^^ mask)) ||| (p <<< (TILE_BIT_SIZE * val))

/-- Encode a 9-cell array as the compact word (board.rs, Board::from_arr):
for each nonzero entry `val` at index `pos`, store `pos` in the field of
tile `val - 1`, starting from the all-zero word. -/
def from_arr (arr : List Nat) : Nat :=
  arr.enum.foldl (fun b pv => if pv.2 ≠ 0 then set_value b pv.1 (pv.2 - 1) else b) 0

/-- Decode the compact word into the 9-cell array (board.rs, Board::into_arr):
start from nine zeroes and place `val + 1` at the stored position of each
tile `val`.  The source writes through an array index, which is always in
bounds for the valid boards considered here. -/
def into_arr (b : Nat) : List Nat :=
  (List.range 8).foldl (fun arr v => arr.set (get_pos b v) (v + 1)) (List.replicate 9 0)

/-- Canonical solved layout (board.rs, const SOLVED_BOARD): rows
[1 2 3 / 8 _ 4 / 7 6 5], the classical spiral goal with the empty cell in
the center. -/
def SOLVED_BOARD : List Nat := [1, 2, 3, 8, 0, 4, 7, 6, 5]

/-- Encoded solved state (board.rs, SOLVED_BOARD_ENCODED). -/
def SOLVED_BOARD_ENCODED : Nat := from_arr SOLVED_BOARD

/-- Default board is the solved state (board.rs, impl Default for Board). -/
def board_default : Nat := SOLVED_BOARD_ENCODED

/-- Solved predicate (board.rs, Board::is_solved): equality of the encoded
words. -/
def is_solved (b : Nat) : Bool := b == SOLVED_BOARD_ENCODED

/-- Legality of moving the empty cell at `position` in `direction`
(board.rs, Board::is_valid_movement): row is position / 3, column is
position % 3, and a move is blocked on the matching border. -/
def is_valid_movement (position : Nat) (direction : Direction) : Bool :=
  match direction with
  | Up => position / BOARD_SIDE != 0
  | Down => position / BOARD_SIDE != BOARD_SIDE - 1
  | Left => position % BOARD_SIDE != 0
  | Right => position % BOARD_SIDE != BOARD_SIDE - 1

/-- Target cell of a move (board.rs, Board::calculate_new_position):
none embeds the Err case for an illegal direction. -/
def calculate_new_position (fromPos : Nat) (direction : Direction) : Option Nat :=
  if is_valid_movement fromPos direction then
    some (match direction with
      | Up => fromPos - BOARD_SIDE
      | Down => fromPos + BOARD_SIDE
      | Left => fromPos - 1
      | Right => fromPos + 1)
  else
    none

/-- Bitmask of occupied cells (the `idx` accumulator inside
board.rs, Board::find_space_position). -/
def occupied_mask (b : Nat) : Nat :=
  (List.range 8).foldl (fun idx v => idx ||| (1 <<< get_pos b v)) 0

/-- Index of the lowest zero bit, embedding u32::trailing_ones; 33 probes
suffice for a 32-bit word. -/
def u32_trailing_ones (n : Nat) : Nat :=
  go n 33 0
where
  /-- Scan upward from bit `i` while bits are set. -/
  go (n : Nat) : Nat → Nat → Nat
    | 0, i => i
    | fuel + 1, i => if n.testBit i then go n fuel (i + 1) else i

/-- Position of the empty cell (board.rs, Board::find_space_position):
first cell index missing from the occupied mask. -/
def find_space_position (b : Nat) : Nat :=
  u32_trailing_ones (occupied_mask b)

/-- Tile located at cell `p` (board.rs, Board::get_value).  The source
scans tiles 0..7 and breaks at the first whose stored position is `p`;
if none matches, an assertion fails (a panic), embedded as none. -/
def get_value (b : Nat) (p : Nat) : Option Nat :=
  (List.range 8).find? (fun v => get_pos b v == p)

/-- Outcome of a move: success, the illegal-move Err, or the panic of the
assertion inside get_value. -/
inductive MoveOutcome where
  | moved (b : Nat)
  | illegal
  | panicked
deriving DecidableEq, Repr

/-- Move the empty cell (board.rs, Board::move_space): find the empty
cell, compute the target cell (Err when illegal), find the tile at the
target (panic when absent) and store that tile at the old empty cell. -/
def move_space (b : Nat) (direction : Direction) : MoveOutcome :=
  let space_position := find_space_position b
  match calculate_new_position space_position direction with
  | none => .illegal
  | some space_new_position =>
    match get_value b space_new_position with
    | none => .panicked
    | some digit_to_move => .moved (set_value b space_position digit_to_move)

/-- Absolute difference on naturals, embedding u8::abs_diff. -/
def abs_diff (a b : Nat) : Nat := if b ≤ a then a - b else b - a

/-- Manhattan distance between two cell indices (board.rs,
Board::manhattan_distance): column and row distances added. -/
def manhattan_distance (pos1 pos2 : Nat) : Nat :=
  abs_diff (pos2 % BOARD_SIDE) (pos1 % BOARD_SIDE)
    + abs_diff (pos2 / BOARD_SIDE) (pos1 / BOARD_SIDE)

/-- Heuristic distance to the solution (board.rs,
Board::heuristic_distance_to_solution): sum over the eight tiles of the
Manhattan distance between the position in the default (solved) board and
the current position.  The empty cell is not counted (that term is
commented out in the source). -/
def heuristic_distance_to_solution (b : Nat) : Nat :=
  (List.range 8).foldl
    (fun distance v =>
      distance + manhattan_distance (get_pos board_default v) (get_pos b v)) 0

/-- Total order on boards (board.rs, impl Ord for Board): comparison of
the heuristic distances alone. -/
def board_cmp (a b : Nat) : Ordering :=
  compare (heuristic_distance_to_solution a) (heuristic_distance_to_solution b)

/-- Total order on a board paired with its step count (board.rs,
impl Ord for BoardWithSteps): comparison of heuristic plus steps. -/
def board_with_steps_cmp (a : Nat × Nat) (b : Nat × Nat) : Ordering :=
  compare (heuristic_distance_to_solution a.1 + a.2)
    (heuristic_distance_to_solution b.1 + b.2)

/-- Opposite direction, modelled from the spec sentence on move
reversibility (the source has no such function). -/
def opposite : Direction → Direction
  | Up => Down
  | Down => Up
  | Left => Right
  | Right => Left

/-- Set of currently legal directions, the spec operation legal_moves
expressed with the source primitive is_valid_movement over the current
empty cell. -/
def legal_moves (b : Nat) : List Direction :=
  ALL_DIRECTIONS.filter (fun d => is_valid_movement (find_space_position b) d)

/-- Well-formed encoded board: a 32-bit word whose eight tile fields hold
distinct cell indices below 9.  This is the invariant the source
maintains for every board built by from_arr from a permutation and
preserved by moves. -/
def ValidBoard (b : Nat) : Prop :=
  b < 2 ^ 32 ∧ (∀ v, v < 8 → get_pos b v < 9) ∧
    (∀ v, v < 8 → ∀ w, w < 8 → get_pos b v = get_pos b w → v = w)

instance (b : Nat) : Decidable (ValidBoard b) := by
  unfold ValidBoard; infer_instance

/-- Frontier policy (search_strategies.rs, trait SearchStrategy),
embedded as functions over the list of pending boards: get_next pops the
next board together with the remaining frontier, enqueue pushes a board,
len reports the pending count. -/
structure SearchStrategy where
  getNext : List Nat → Option (Nat × List Nat)
  enqueue : Nat → List Nat → List Nat
  len : List Nat → Nat

/-- Breadth-first frontier (search_strategies.rs, SimpleSearchStrategy
with ExplorerStrategy::Bfs): pop at the front, push at the back. -/
def bfs_strategy : SearchStrategy where
  getNext l := match l with | [] => none | x :: xs => some (x, xs)
  enqueue b l := l ++ [b]
  len l := l.length

/-- Depth-first frontier (search_strategies.rs, SimpleSearchStrategy with
ExplorerStrategy::Dfs): pop at the back, push at the back. -/
def dfs_strategy : SearchStrategy where
  getNext l := match l.getLast? with | none => none | some x => some (x, l.dropLast)
  enqueue b l := l ++ [b]
  len l := l.length

/-- Pop of the best-first frontier at element type Board
(search_strategies.rs, HeuristicSearchStrategy over Reverse items): the
binary heap removes an element that is minimal for the element ordering,
here impl Ord for Board, which compares heuristic distances only.  The
heap breaks ties arbitrarily; this embedding keeps the earliest minimal
element. -/
def heuristic_get_next (l : List Nat) : Option (Nat × List Nat) :=
  match l with
  | [] => none
  | x :: xs =>
    let m := xs.foldl
      (fun acc c =>
        if heuristic_distance_to_solution c < heuristic_distance_to_solution acc
        then c else acc) x
    some (m, l.erase m)

/-- Best-first frontier at element type Board (the only element type the
solver can instantiate, since impl Solver requires a frontier of plain
boards). -/
def heuristic_strategy : SearchStrategy where
  getNext := heuristic_get_next
  enqueue b l := b :: l
  len l := l.length

/-- Lookup in an association list used to embed HashMap: insertion is
cons, so the first match is the most recent insertion, matching the
overwrite semantics of HashMap::insert as observed through get. -/
def map_get (l : List (Nat × Nat)) (k : Nat) : Option Nat :=
  (l.find? (fun pr => pr.1 == k)).map (fun pr => pr.2)

/-- Search engine state (solver.rs, struct Solver).  HashMap fields
become association lists (newest first), the HashSet becomes a list, the
frontier is the list of pending boards interpreted by the chosen
strategy.  The wall-clock duration field is outside the embedding. -/
structure Solver where
  parents : List (Nat × Nat)
  boards_checked : List Nat
  boards_to_check : List Nat
  to_check_size : List Nat
  depth_by_board : List (Nat × Nat)
  generated_nodes : Nat
  enqueued_nodes : Nat
  duplicates_pruned : Nat
  max_depth_reached : Nat
deriving DecidableEq, Repr

/-- Freshly constructed solver (solver.rs, derived Default): everything
empty or zero. -/
def solver_default : Solver :=
  { parents := [], boards_checked := [], boards_to_check := [],
    to_check_size := [], depth_by_board := [], generated_nodes := 0,
    enqueued_nodes := 0, duplicates_pruned := 0, max_depth_reached := 0 }

/-- Initialization (solver.rs, Solver::init_search): enqueue the start
board and record its depth as 0.  Nothing else is touched. -/
def init_search (S : SearchStrategy) (sv : Solver) (start : Nat) : Solver :=
  { sv with
    boards_to_check := S.enqueue start sv.boards_to_check,
    depth_by_board := (start, 0) :: sv.depth_by_board }

/-- Successor bookkeeping (solver.rs, Solver::enqueue_successor): push
the child on the frontier, count it, record its parent, record its depth
as parent depth plus one (depth 0 is assumed when the parent has no
recorded depth) and update the running maximum depth. -/
def enqueue_successor (S : SearchStrategy) (sv : Solver) (parent child : Nat) : Solver :=
  let parent_depth := (map_get sv.depth_by_board parent).getD 0
  let depth := parent_depth + 1
  { sv with
    boards_to_check := S.enqueue child sv.boards_to_check,
    enqueued_nodes := sv.enqueued_nodes + 1,
    parents := (child, parent) :: sv.parents,
    depth_by_board := (child, depth) :: sv.depth_by_board,
    max_depth_reached :=
      if depth > sv.max_depth_reached then depth else sv.max_depth_reached }

/-- One move attempt (solver.rs, Solver::process_move): on a successful
move count the generated node, then either record a pruned duplicate
(child already explored) or enqueue the successor.  An illegal move is
skipped; a panic inside the move aborts the run (none). -/
def process_move (S : SearchStrategy) (sv : Solver) (parent : Nat)
    (dir : Direction) : Option Solver :=
  match move_space parent dir with
  | .illegal => some sv
  | .panicked => none
  | .moved child =>
    let sv := { sv with generated_nodes := sv.generated_nodes + 1 }
    if child ∈ sv.boards_checked then
      some { sv with duplicates_pruned := sv.duplicates_pruned + 1 }
    else
      some (enqueue_successor S sv parent child)

/-- Expansion (solver.rs, Solver::expand_neighbors): attempt all four
directions in order. -/
def expand_neighbors (S : SearchStrategy) (sv : Solver) (board : Nat) : Option Solver :=
  ALL_DIRECTIONS.foldlM (fun s d => process_move S s board d) sv

/-- Search loop (solver.rs, the while let loop in Solver::solve): pop,
mark explored, record the frontier size after removal, return on the
solved board, otherwise expand and continue.  Fuel bounds the unbounded
source loop; none means the run did not finish within the fuel or a move
panicked. -/
def solve_loop (S : SearchStrategy) : Nat → Solver → Option (Option Nat × Solver)
  | 0, _ => none
  | fuel + 1, sv =>
    match S.getNext sv.boards_to_check with
    | none => some (none, sv)
    | some (board, rest) =>
      let sv := { sv with
        boards_to_check := rest,
        boards_checked := board :: sv.boards_checked,
        to_check_size := sv.to_check_size ++ [S.len rest] }
      if is_solved board then some (some board, sv)
      else
        match expand_neighbors S sv board with
        | none => none
        | some sv => solve_loop S fuel sv

/-- Complete search (solver.rs, Solver::solve): initialize with the start
board on a given solver state and run the loop. -/
def solve (S : SearchStrategy) (fuel : Nat) (sv : Solver) (board : Nat) :
    Option (Option Nat × Solver) :=
  solve_loop S fuel (init_search S sv board)

/-- Parent chain walk (the while let loop in solver.rs,
Solver::step_by_step_solution).  The source pushes each parent and
reverses at the end; prepending builds the same final list.  Fuel bounds
the unbounded source loop: none means the chain did not reach a board
without a parent within the fuel. -/
def step_by_step_aux (parents : List (Nat × Nat)) : Nat → Nat → List Nat → Option (List Nat)
  | 0, _, _ => none
  | fuel + 1, c, acc =>
    match map_get parents c with
    | none => some acc
    | some p => step_by_step_aux parents fuel p (p :: acc)

/-- Path reconstruction (solver.rs, Solver::step_by_step_solution):
start from the default (solved) board and follow parent links backward;
the resulting list runs from the start board to the solved board.  One
fuel unit per stored parent entry plus one always suffices for the chains
produced by the solver, as proved below. -/
def step_by_step_solution (sv : Solver) : Option (List Nat) :=
  step_by_step_aux sv.parents (sv.parents.length + 1) board_default [board_default]

/-! ## Bit-level facts about the compact encoding -/

theorem get_pos_eq (b v : Nat) : get_pos b v = (b >>> (4 * v)) % 2 ^ 4 := by
  simp [get_pos, TILE_BIT_SIZE, Nat.shiftLeft_eq]

theorem get_pos_lt_16 (b v : Nat) : get_pos b v < 16 := by
  rw [get_pos_eq]
  exact Nat.mod_lt _ (by norm_num)

theorem testBit_get_pos (b v i : Nat) :
    (get_pos b v).testBit i = (decide (i < 4) && b.testBit (4 * v + i)) := by
  rw [get_pos_eq, Nat.testBit_mod_two_pow, Nat.testBit_shiftRight]

theorem testBit_fifteen (k : Nat) : Nat.testBit 15 k = decide (k < 4) := by
  rw [show (15 : Nat) = 2 ^ 4 - 1 by norm_num, Nat.testBit_two_pow_sub_one]

theorem set_value_testBit (b p v : Nat) (hp : p < 16) (hv : v < 8) (j : Nat) :
    (set_value b p v).testBit j =
      if 4 * v ≤ j ∧ j < 4 * v + 4 then p.testBit (j - 4 * v)
      else (decide (j < 32) && b.testBit j) := by
  have h15 : ((1 <<< 4) - 1 : Nat) = 2 ^ 4 - 1 := by decide
  simp only [set_value, TILE_BIT_SIZE, h15, Nat.testBit_lor, Nat.testBit_land,
    Nat.testBit_xor, Nat.testBit_shiftLeft, Nat.testBit_two_pow_sub_one,
    testBit_fifteen, ge_iff_le]
  by_cases hlo : 4 * v ≤ j
  · by_cases hhi : j < 4 * v + 4
    · have h32 : j < 32 := by omega
      have hj4 : j - 4 * v < 4 := by omega
      simp [hlo, hhi, h32, hj4]
    · have hj4 : ¬ j - 4 * v < 4 := by omega
      have hpbit : p.testBit (j - 4 * v) = false := by
        refine Nat.testBit_lt_two_pow ?_
        calc p < 2 ^ 4 := hp
        _ ≤ 2 ^ (j - 4 * v) := Nat.pow_le_pow_right (by norm_num) (by omega)
      simp [hlo, hhi, hj4, hpbit, Bool.and_comm]
  · simp [hlo, fun h : 4 * v ≤ j ∧ j < 4 * v + 4 => hlo h.1, Bool.and_comm]

theorem get_pos_set_value_self (b p v : Nat) (hp : p < 16) (hv : v < 8) :
    get_pos (set_value b p v) v = p := by
  refine Nat.eq_of_testBit_eq fun i => ?_
  rw [testBit_get_pos, set_value_testBit b p v hp hv]
  by_cases hi : i < 4
  · have : 4 * v ≤ 4 * v + i ∧ 4 * v + i < 4 * v + 4 := by omega
    simp [hi, this]
  · have hpbit : p.testBit i = false := by
      refine Nat.testBit_lt_two_pow ?_
      calc p < 2 ^ 4 := hp
      _ ≤ 2 ^ i := Nat.pow_le_pow_right (by norm_num) (by omega)
    simp [hi, hpbit]

theorem get_pos_set_value_ne (b p v w : Nat) (hp : p < 16) (hv : v < 8)
    (hw : w < 8) (hne : w ≠ v) :
    get_pos (set_value b p v) w = get_pos b w := by
  refine Nat.eq_of_testBit_eq fun i => ?_
  rw [testBit_get_pos, testBit_get_pos, set_value_testBit b p v hp hv]
  by_cases hi : i < 4
  · have : ¬ (4 * v ≤ 4 * w + i ∧ 4 * w + i < 4 * v + 4) := by omega
    have h32 : 4 * w + i < 32 := by omega
    simp [hi, this, h32]
  · simp [hi]

theorem set_value_lt (b p v : Nat) (hp : p < 16) (hv : v < 8) :
    set_value b p v < 2 ^ 32 := by
  refine Nat.lt_pow_two_of_testBit _ fun i hi => ?_
  rw [set_value_testBit b p v hp hv]
  have hcase : ¬ (4 * v ≤ i ∧ i < 4 * v + 4) := by omega
  have h32 : ¬ i < 32 := by omega
  simp [hcase, h32]

theorem board_eq_of_get_pos_eq (b c : Nat) (hb : b < 2 ^ 32) (hc : c < 2 ^ 32)
    (h : ∀ v, v < 8 → get_pos b v = get_pos c v) : b = c := by
  refine Nat.eq_of_testBit_eq fun i => ?_
  by_cases hi : i < 32
  · have hv : i / 4 < 8 := by omega
    have hrw : ∀ x : Nat, x.testBit i = (get_pos x (i / 4)).testBit (i % 4) := by
      intro x
      rw [testBit_get_pos]
      have : 4 * (i / 4) + i % 4 = i := by omega
      rw [this]
      simp [Nat.mod_lt i (show 0 < 4 by norm_num)]
    rw [hrw b, hrw c, h _ hv]
  · rw [Nat.testBit_lt_two_pow, Nat.testBit_lt_two_pow]
    · exact lt_of_lt_of_le hc (Nat.pow_le_pow_right (by norm_num) (by omega))
    · exact lt_of_lt_of_le hb (Nat.pow_le_pow_right (by norm_num) (by omega))

/-! ## The empty cell: occupancy mask and trailing ones -/

theorem testBit_one_shift (p j : Nat) : (1 <<< p).testBit j = decide (p = j) := by
  rw [Nat.shiftLeft_eq, one_mul, Nat.testBit_two_pow]

theorem testBit_occupied_foldl (b : Nat) (l : List Nat) (m0 j : Nat) :
    (l.foldl (fun idx v => idx ||| (1 <<< get_pos b v)) m0).testBit j
      = (m0.testBit j || l.any (fun v => get_pos b v == j)) := by
  induction l generalizing m0 with
  | nil => simp
  | cons x xs ih =>
    simp only [List.foldl_cons, List.any_cons, ih, Nat.testBit_lor,
      testBit_one_shift]
    have hdx : decide (get_pos b x = j) = (get_pos b x == j) := by
      by_cases h : get_pos b x = j <;> simp [h]
    rw [hdx, Bool.or_assoc]

theorem testBit_occupied_mask (b j : Nat) :
    (occupied_mask b).testBit j = (List.range 8).any (fun v => get_pos b v == j) := by
  rw [occupied_mask, testBit_occupied_foldl]
  simp

theorem u32_trailing_ones_go_spec (n : Nat) :
    ∀ fuel i s, i ≤ s → s < i + fuel →
      (∀ j, i ≤ j → j < s → n.testBit j = true) → n.testBit s = false →
      u32_trailing_ones.go n fuel i = s := by
  intro fuel
  induction fuel with
  | zero => intro i s h1 h2; omega
  | succ k ih =>
    intro i s h1 h2 hset hunset
    rw [u32_trailing_ones.go]
    by_cases his : i = s
    · subst his
      simp [hunset]
    · have hbit : n.testBit i = true := hset i (le_refl i) (by omega)
      rw [hbit]
      simp only [if_true]
      exact ih (i + 1) s (by omega) (by omega) (fun j hj1 hj2 => hset j (by omega) hj2) hunset

theorem valid_space_exists (b : Nat) (hb : ValidBoard b) :
    ∃ s, s < 9 ∧ (∀ v, v < 8 → get_pos b v ≠ s) ∧
      (∀ j, j < 9 → j ≠ s → ∃ v, v < 8 ∧ get_pos b v = j) := by
  obtain ⟨-, hlt, hinj⟩ := hb
  let f : Fin 8 → Fin 9 := fun v => ⟨get_pos b v.1, hlt v.1 v.2⟩
  have hfi : Function.Injective f := by
    intro v w hvw
    have : get_pos b v.1 = get_pos b w.1 := congrArg Fin.val hvw
    exact Fin.ext (hinj v.1 v.2 w.1 w.2 this)
  have hcard : (Finset.image f Finset.univ).card = 8 := by
    rw [Finset.card_image_of_injective _ hfi, Finset.card_univ, Fintype.card_fin]
  have hex : ∃ s : Fin 9, s ∉ Finset.image f Finset.univ := by
    by_contra h
    push_neg at h
    have hsub : (Finset.univ : Finset (Fin 9)) ⊆ Finset.image f Finset.univ :=
      fun x _ => h x
    have := Finset.card_le_card hsub
    rw [hcard, Finset.card_univ, Fintype.card_fin] at this
    omega
  obtain ⟨s, hs⟩ := hex
  have heq : Finset.image f Finset.univ = Finset.univ.erase s := by
    refine Finset.eq_of_subset_of_card_le ?_ ?_
    · intro x hx
      refine Finset.mem_erase.mpr ⟨?_, Finset.mem_univ x⟩
      rintro rfl
      exact hs hx
    · rw [hcard, Finset.card_erase_of_mem (Finset.mem_univ s), Finset.card_univ,
        Fintype.card_fin]
  refine ⟨s.1, s.2, ?_, ?_⟩
  · intro v hv hcontra
    refine hs ?_
    refine Finset.mem_image.mpr ⟨⟨v, hv⟩, Finset.mem_univ _, ?_⟩
    exact Fin.ext hcontra
  · intro j hj hne
    have hjmem : (⟨j, hj⟩ : Fin 9) ∈ Finset.univ.erase s := by
      refine Finset.mem_erase.mpr ⟨?_, Finset.mem_univ _⟩
      intro hcontra
      exact hne (congrArg Fin.val hcontra)
    rw [← heq] at hjmem
    obtain ⟨v, -, hv⟩ := Finset.mem_image.mp hjmem
    exact ⟨v.1, v.2, congrArg Fin.val hv⟩

theorem find_space_eq (b : Nat) (hb : ValidBoard b) (s : Nat) (hs9 : s < 9)
    (hfree : ∀ v, v < 8 → get_pos b v ≠ s)
    (hocc : ∀ j, j < 9 → j ≠ s → ∃ v, v < 8 ∧ get_pos b v = j) :
    find_space_position b = s := by
  rw [find_space_position, u32_trailing_ones]
  refine u32_trailing_ones_go_spec _ 33 0 s (Nat.zero_le s) (by omega) ?_ ?_
  · intro j hj0 hjs
    rw [testBit_occupied_mask]
    obtain ⟨v, hv8, hv⟩ := hocc j (by omega) (by omega)
    refine List.any_eq_true.mpr ⟨v, List.mem_range.mpr hv8, ?_⟩
    exact beq_iff_eq.mpr hv
  · rw [testBit_occupied_mask]
    refine List.any_eq_false.mpr ?_
    intro v hv hcontra
    exact hfree v (List.mem_range.mp hv) (by simpa using hcontra)

theorem find_space_spec (b : Nat) (hb : ValidBoard b) :
    find_space_position b < 9 ∧
      (∀ v, v < 8 → get_pos b v ≠ find_space_position b) ∧
      (∀ j, j < 9 → j ≠ find_space_position b → ∃ v, v < 8 ∧ get_pos b v = j) := by
  obtain ⟨s, hs9, hfree, hocc⟩ := valid_space_exists b hb
  have := find_space_eq b hb s hs9 hfree hocc
  subst this
  exact ⟨hs9, hfree, hocc⟩

/-! ## Geometry of single moves -/

theorem abs_diff_eq (a b : Nat) : abs_diff a b = a - b + (b - a) := by
  rw [abs_diff]; split <;> omega

theorem manhattan_eq (p q : Nat) : manhattan_distance p q =
    q % 3 - p % 3 + (p % 3 - q % 3) + (q / 3 - p / 3 + (p / 3 - q / 3)) := by
  simp [manhattan_distance, BOARD_SIDE, abs_diff_eq]

theorem manhattan_triangle (a b c : Nat) :
    manhattan_distance a c ≤ manhattan_distance a b + manhattan_distance b c := by
  rw [manhattan_eq, manhattan_eq, manhattan_eq]
  omega

theorem calc_none_iff (s : Nat) (d : Direction) :
    calculate_new_position s d = none ↔ is_valid_movement s d = false := by
  unfold calculate_new_position
  by_cases h : is_valid_movement s d <;> simp [h]

theorem calc_some_spec (s t : Nat) (d : Direction) (hs : s < 9)
    (h : calculate_new_position s d = some t) :
    t < 9 ∧ t ≠ s ∧ manhattan_distance t s = 1 ∧ manhattan_distance s t = 1 ∧
      calculate_new_position t (opposite d) = some s := by
  cases d with
  | Up =>
    simp only [calculate_new_position, is_valid_movement, BOARD_SIDE, opposite,
      bne_iff_ne, ne_eq] at h ⊢
    split at h
    case isFalse => exact absurd h (by simp)
    case isTrue hv =>
      have ht : t = s - 3 := by injection h with h2; omega
      have hs3 : 3 ≤ s := by omega
      subst ht
      refine ⟨by omega, by omega, by rw [manhattan_eq]; omega,
        by rw [manhattan_eq]; omega, ?_⟩
      rw [if_pos]
      · exact congrArg some (by omega)
      · omega
  | Down =>
    simp only [calculate_new_position, is_valid_movement, BOARD_SIDE, opposite,
      bne_iff_ne, ne_eq] at h ⊢
    split at h
    case isFalse => exact absurd h (by simp)
    case isTrue hv =>
      have ht : t = s + 3 := by injection h with h3; omega
      subst ht
      refine ⟨by omega, by omega, by rw [manhattan_eq]; omega,
        by rw [manhattan_eq]; omega, ?_⟩
      rw [if_pos]
      · exact congrArg some (by omega)
      · omega
  | Left =>
    simp only [calculate_new_position, is_valid_movement, BOARD_SIDE, opposite,
      bne_iff_ne, ne_eq] at h ⊢
    split at h
    case isFalse => exact absurd h (by simp)
    case isTrue hv =>
      have ht : t = s - 1 := by injection h with h4; omega
      have hs1 : 1 ≤ s % 3 := by omega
      have hs1b : 1 ≤ s := by omega
      subst ht
      refine ⟨by omega, by omega, by rw [manhattan_eq]; omega,
        by rw [manhattan_eq]; omega, ?_⟩
      rw [if_pos]
      · exact congrArg some (by omega)
      · omega
  | Right =>
    simp only [calculate_new_position, is_valid_movement, BOARD_SIDE, opposite,
      bne_iff_ne, ne_eq] at h ⊢
    split at h
    case isFalse => exact absurd h (by simp)
    case isTrue hv =>
      have ht : t = s + 1 := by injection h with h5; omega
      have hsm : s % 3 < 2 := by omega
      subst ht
      refine ⟨by omega, by omega, by rw [manhattan_eq]; omega,
        by rw [manhattan_eq]; omega, ?_⟩
      rw [if_pos]
      · exact congrArg some (by omega)
      · omega

/-! ## Characterization of move_space on well-formed boards -/

theorem find_space_eq_of_free (c t : Nat) (hc : ValidBoard c) (ht : t < 9)
    (hfree : ∀ v, v < 8 → get_pos c v ≠ t) : find_space_position c = t := by
  obtain ⟨hlt, hfree0, hocc0⟩ := find_space_spec c hc
  by_contra hne
  obtain ⟨v, hv, hvp⟩ := hocc0 t ht (fun heq => hne heq.symm)
  exact hfree v hv hvp

theorem get_value_eq_some (b p v : Nat) (hb : ValidBoard b) (hv : v < 8)
    (hp : get_pos b v = p) : get_value b p = some v := by
  obtain ⟨-, -, hinj⟩ := hb
  rw [get_value]
  cases hf : (List.range 8).find? (fun w => get_pos b w == p) with
  | none =>
    exfalso
    have := List.find?_eq_none.mp hf v (List.mem_range.mpr hv)
    exact this (by simpa using hp)
  | some w =>
    have hpred := List.find?_some hf
    have hmem := List.mem_of_find?_eq_some hf
    have hw8 : w < 8 := List.mem_range.mp hmem
    have hwp : get_pos b w = p := by simpa using hpred
    have hweq : w = v := hinj w hw8 v hv (by rw [hwp, hp])
    rw [hweq]

theorem move_space_illegal_iff (b : Nat) (d : Direction) :
    move_space b d = MoveOutcome.illegal ↔
      is_valid_movement (find_space_position b) d = false := by
  rw [move_space]
  cases hc : calculate_new_position (find_space_position b) d with
  | none => simpa using (calc_none_iff _ d).mp hc
  | some t =>
    have hnv : is_valid_movement (find_space_position b) d = true := by
      cases hvm : is_valid_movement (find_space_position b) d
      · exact absurd hc (by rw [(calc_none_iff _ _).mpr hvm]; simp)
      · rfl
    dsimp only
    cases hg : get_value b t <;> simp [hnv]

theorem move_space_not_panicked (b : Nat) (d : Direction) (hb : ValidBoard b) :
    move_space b d ≠ MoveOutcome.panicked := by
  rw [move_space]
  cases hc : calculate_new_position (find_space_position b) d with
  | none => simp
  | some t =>
    obtain ⟨hs9, hfree, hocc⟩ := find_space_spec b hb
    obtain ⟨ht9, htne, -, -, -⟩ := calc_some_spec _ t d hs9 hc
    obtain ⟨v, hv8, hvp⟩ := hocc t ht9 htne
    dsimp only
    rw [get_value_eq_some b t v hb hv8 hvp]
    simp

theorem move_space_moved_spec (b c : Nat) (d : Direction) (hb : ValidBoard b)
    (h : move_space b d = MoveOutcome.moved c) :
    ∃ t v, calculate_new_position (find_space_position b) d = some t ∧
      v < 8 ∧ get_pos b v = t ∧ c = set_value b (find_space_position b) v ∧
      ValidBoard c ∧ find_space_position c = t ∧
      get_pos c v = find_space_position b ∧
      (∀ w, w < 8 → w ≠ v → get_pos c w = get_pos b w) := by
  obtain ⟨hs9, hfree, hocc⟩ := find_space_spec b hb
  rw [move_space] at h
  cases hc : calculate_new_position (find_space_position b) d with
  | none => rw [hc] at h; simp at h
  | some t =>
    rw [hc] at h
    dsimp only at h
    cases hg : get_value b t with
    | none => rw [hg] at h; simp at h
    | some v =>
      rw [hg] at h
      dsimp only at h
      have hcc : c = set_value b (find_space_position b) v := by
        injection h with h6
        exact h6.symm
      rw [get_value] at hg
      have hv8 : v < 8 := List.mem_range.mp (List.mem_of_find?_eq_some hg)
      have hvt : get_pos b v = t := by simpa using List.find?_some hg
      obtain ⟨ht9, htne, -, -, -⟩ := calc_some_spec _ t d hs9 hc
      have hs16 : find_space_position b < 16 := by omega
      have hself : get_pos c v = find_space_position b := by
        rw [hcc]; exact get_pos_set_value_self b _ v hs16 hv8
      have hother : ∀ w, w < 8 → w ≠ v → get_pos c w = get_pos b w := by
        intro w hw hne
        rw [hcc]; exact get_pos_set_value_ne b _ v w hs16 hv8 hw hne
      have hc32 : c < 2 ^ 32 := by
        rw [hcc]; exact set_value_lt b _ v hs16 hv8
      have hvalidc : ValidBoard c := by
        refine ⟨hc32, ?_, ?_⟩
        · intro w hw
          by_cases hwv : w = v
          · subst hwv; rw [hself]; omega
          · rw [hother w hw hwv]; exact hb.2.1 w hw
        · intro w1 hw1 w2 hw2 heq
          by_cases h1 : w1 = v <;> by_cases h2 : w2 = v
          · rw [h1, h2]
          · exfalso
            subst h1
            rw [hself, hother w2 hw2 h2] at heq
            exact hfree w2 hw2 heq.symm
          · exfalso
            subst h2
            rw [hself, hother w1 hw1 h1] at heq
            exact hfree w1 hw1 heq
          · exact hb.2.2 w1 hw1 w2 hw2
              (by rw [hother w1 hw1 h1, hother w2 hw2 h2] at heq; exact heq)
      have hfsc : find_space_position c = t := by
        refine find_space_eq_of_free c t hvalidc ht9 ?_
        intro w hw
        by_cases hwv : w = v
        · subst hwv; rw [hself]; exact fun heq => htne heq.symm
        · rw [hother w hw hwv]
          intro heq
          exact hwv (hb.2.2 w hw v hv8 (by rw [heq, hvt]))
      exact ⟨t, v, rfl, hv8, hvt, hcc, hvalidc, hfsc, hself, hother⟩

theorem valid_board_move (b c : Nat) (d : Direction) (hb : ValidBoard b)
    (h : move_space b d = MoveOutcome.moved c) : ValidBoard c := by
  obtain ⟨t, v, -, -, -, -, hvalidc, -, -, -⟩ := move_space_moved_spec b c d hb h
  exact hvalidc

theorem move_space_reverse (b c : Nat) (d : Direction) (hb : ValidBoard b)
    (h : move_space b d = MoveOutcome.moved c) :
    move_space c (opposite d) = MoveOutcome.moved b := by
  obtain ⟨t, v, hcalc, hv8, hvt, hcc, hvalidc, hfsc, hcs, hcw⟩ :=
    move_space_moved_spec b c d hb h
  obtain ⟨hs9, hfree, hocc⟩ := find_space_spec b hb
  obtain ⟨ht9, htne, -, -, hback⟩ := calc_some_spec _ t d hs9 hcalc
  have hgv : get_value c (find_space_position b) = some v :=
    get_value_eq_some c _ v hvalidc hv8 hcs
  rw [move_space, hfsc, hback]
  dsimp only
  rw [hgv]
  refine congrArg MoveOutcome.moved ?_
  have ht16 : t < 16 := by omega
  refine board_eq_of_get_pos_eq _ _ (set_value_lt c t v ht16 hv8) hb.1 ?_
  intro w hw
  by_cases hwv : w = v
  · subst hwv
    rw [get_pos_set_value_self c t w ht16 hw, hvt]
  · rw [get_pos_set_value_ne c t v w ht16 hv8 hw hwv, hcw w hw hwv]

/-! ## Heuristic: sum form and change under one move -/

theorem foldl_add_eq (f : Nat → Nat) (l : List Nat) (a : Nat) :
    l.foldl (fun acc v => acc + f v) a = a + (l.map f).sum := by
  induction l generalizing a with
  | nil => simp
  | cons x xs ih => simp [ih, Nat.add_assoc]

theorem list_range_map_sum (f : Nat → Nat) (n : Nat) :
    ((List.range n).map f).sum = ∑ i ∈ Finset.range n, f i := by
  induction n with
  | zero => simp
  | succ k ih =>
    rw [List.range_succ, List.map_append, List.sum_append, Finset.sum_range_succ,
      ih]
    simp

theorem heuristic_eq_sum (b : Nat) :
    heuristic_distance_to_solution b =
      ∑ v ∈ Finset.range 8,
        manhattan_distance (get_pos board_default v) (get_pos b v) := by
  rw [heuristic_distance_to_solution, foldl_add_eq, list_range_map_sum]
  simp

theorem heuristic_move_le (b c : Nat) (d : Direction) (hb : ValidBoard b)
    (h : move_space b d = MoveOutcome.moved c) :
    heuristic_distance_to_solution c ≤ heuristic_distance_to_solution b + 1 ∧
      heuristic_distance_to_solution b ≤ heuristic_distance_to_solution c + 1 := by
  obtain ⟨t, v, hcalc, hv8, hvt, hcc, hvalidc, hfsc, hcs, hcw⟩ :=
    move_space_moved_spec b c d hb h
  obtain ⟨hs9, -, -⟩ := find_space_spec b hb
  obtain ⟨ht9, htne, hm1, hm2, -⟩ := calc_some_spec _ t d hs9 hcalc
  rw [heuristic_eq_sum, heuristic_eq_sum]
  have hvmem : v ∈ Finset.range 8 := Finset.mem_range.mpr hv8
  rw [← Finset.sum_erase_add (Finset.range 8)
    (fun w => manhattan_distance (get_pos board_default w) (get_pos c w)) hvmem,
    ← Finset.sum_erase_add (Finset.range 8)
    (fun w => manhattan_distance (get_pos board_default w) (get_pos b w)) hvmem]
  have herase : ∀ w ∈ (Finset.range 8).erase v,
      manhattan_distance (get_pos board_default w) (get_pos c w)
        = manhattan_distance (get_pos board_default w) (get_pos b w) := by
    intro w hw
    obtain ⟨hwne, hwmem⟩ := Finset.mem_erase.mp hw
    rw [hcw w (Finset.mem_range.mp hwmem) hwne]
  rw [Finset.sum_congr rfl herase]
  have hfc : manhattan_distance (get_pos board_default v) (get_pos c v)
      ≤ manhattan_distance (get_pos board_default v) (get_pos b v) + 1 := by
    rw [hcs, hvt]
    calc manhattan_distance (get_pos board_default v) (find_space_position b)
        ≤ manhattan_distance (get_pos board_default v) t
            + manhattan_distance t (find_space_position b) :=
          manhattan_triangle _ _ _
    _ = manhattan_distance (get_pos board_default v) t + 1 := by rw [hm1]
  have hfb : manhattan_distance (get_pos board_default v) (get_pos b v)
      ≤ manhattan_distance (get_pos board_default v) (get_pos c v) + 1 := by
    rw [hcs, hvt]
    calc manhattan_distance (get_pos board_default v) t
        ≤ manhattan_distance (get_pos board_default v) (find_space_position b)
            + manhattan_distance (find_space_position b) t :=
          manhattan_triangle _ _ _
    _ = manhattan_distance (get_pos board_default v) (find_space_position b) + 1 := by
          rw [hm2]
  constructor <;> omega

/-- Boards obtainable from the solved configuration by exactly k
successful moves; used to express the adm property from the spec. -/
inductive ReachableIn : Nat → Nat → Prop where
  | base : ReachableIn 0 SOLVED_BOARD_ENCODED
  | step {k b c : Nat} {d : Direction} : ReachableIn k b →
      move_space b d = MoveOutcome.moved c → ReachableIn (k + 1) c

theorem reachable_valid_bound (k b : Nat) (h : ReachableIn k b) :
    ValidBoard b ∧ heuristic_distance_to_solution b ≤ k := by
  induction h with
  | base => exact ⟨by decide, by decide⟩
  | step hr hm ih =>
    obtain ⟨hvalid, hbound⟩ := ih
    refine ⟨valid_board_move _ _ _ hvalid hm, ?_⟩
    have := (heuristic_move_le _ _ _ hvalid hm).1
    omega

/-! ## Minimality of the best-first pop -/

theorem heuristic_foldl_min (xs : List Nat) (x : Nat) :
    (xs.foldl (fun acc c => if heuristic_distance_to_solution c <
        heuristic_distance_to_solution acc then c else acc) x) ∈ x :: xs ∧
      ∀ y ∈ x :: xs,
        heuristic_distance_to_solution
          (xs.foldl (fun acc c => if heuristic_distance_to_solution c <
            heuristic_distance_to_solution acc then c else acc) x)
          ≤ heuristic_distance_to_solution y := by
  induction xs generalizing x with
  | nil => simp
  | cons c cs ih =>
    obtain ⟨ihmem, ihle⟩ := ih (if heuristic_distance_to_solution c <
      heuristic_distance_to_solution x then c else x)
    have hxle : heuristic_distance_to_solution
        (if heuristic_distance_to_solution c < heuristic_distance_to_solution x
          then c else x) ≤ heuristic_distance_to_solution x := by
      split <;> omega
    have hcle : heuristic_distance_to_solution
        (if heuristic_distance_to_solution c < heuristic_distance_to_solution x
          then c else x) ≤ heuristic_distance_to_solution c := by
      split <;> omega
    constructor
    · rw [List.foldl_cons]
      rcases List.mem_cons.mp ihmem with hm | hm
      · rw [hm]
        by_cases hcx : heuristic_distance_to_solution c <
          heuristic_distance_to_solution x
        · simp [hcx]
        · simp [hcx]
      · exact List.mem_cons_of_mem _ (List.mem_cons_of_mem _ hm)
    · intro y hy
      rw [List.foldl_cons]
      have hmin := ihle (if heuristic_distance_to_solution c <
        heuristic_distance_to_solution x then c else x) (List.mem_cons_self _ _)
      rcases List.mem_cons.mp hy with hyx | hyc
      · subst hyx
        omega
      rcases List.mem_cons.mp hyc with hyc2 | hycs
      · subst hyc2
        omega
      · exact ihle y (List.mem_cons_of_mem _ hycs)

/-! ## Association list facts for the parent map -/

/-- Keys of the parent association list. -/
def parent_keys (l : List (Nat × Nat)) : List Nat := l.map (fun pr => pr.1)

theorem parent_keys_append (l1 l2 : List (Nat × Nat)) :
    parent_keys (l1 ++ l2) = parent_keys l1 ++ parent_keys l2 := by
  simp [parent_keys]

theorem parent_keys_cons (pr : Nat × Nat) (l : List (Nat × Nat)) :
    parent_keys (pr :: l) = pr.1 :: parent_keys l := by
  simp [parent_keys]

theorem mem_parent_keys (l : List (Nat × Nat)) (c : Nat) :
    c ∈ parent_keys l ↔ ∃ p, (c, p) ∈ l := by
  constructor
  · intro h
    obtain ⟨pr, hmem, heq⟩ := List.mem_map.mp h
    obtain ⟨a, b⟩ := pr
    dsimp at heq
    subst heq
    exact ⟨b, hmem⟩
  · rintro ⟨p, hp⟩
    exact List.mem_map.mpr ⟨(c, p), hp, rfl⟩

theorem map_get_eq_none_iff (l : List (Nat × Nat)) (c : Nat) :
    map_get l c = none ↔ c ∉ parent_keys l := by
  rw [map_get, Option.map_eq_none']
  constructor
  · intro h hc
    obtain ⟨p, hp⟩ := (mem_parent_keys l c).mp hc
    rw [List.find?_eq_none] at h
    exact h (c, p) hp (by simp)
  · intro h
    rw [List.find?_eq_none]
    intro pr hpr hbeq
    obtain ⟨a, b⟩ := pr
    have ha : a = c := by simpa using hbeq
    subst ha
    exact h ((mem_parent_keys l a).mpr ⟨b, hpr⟩)

theorem map_get_first (l1 : List (Nat × Nat)) (c p : Nat) (l2 : List (Nat × Nat))
    (h : c ∉ parent_keys l1) : map_get (l1 ++ (c, p) :: l2) c = some p := by
  induction l1 with
  | nil => simp [map_get]
  | cons pr l1 ih =>
    rw [parent_keys_cons] at h
    have hne : pr.1 ≠ c := fun heq => h (by rw [heq]; exact List.mem_cons_self _ _)
    rw [List.cons_append, map_get, List.find?_cons_of_neg _ (by simpa using hne)]
    exact ih (fun hm => h (List.mem_cons_of_mem _ hm))

theorem map_get_mem (l : List (Nat × Nat)) (c p : Nat)
    (h : map_get l c = some p) : (c, p) ∈ l := by
  rw [map_get] at h
  obtain ⟨pr, hf, hsnd⟩ := Option.map_eq_some'.mp h
  have hfst : pr.1 = c := by simpa using List.find?_some hf
  have := List.mem_of_find?_eq_some hf
  have hpr : pr = (c, p) := by
    cases pr
    simp_all
  rw [← hpr]
  exact this

theorem first_key_decomp (l : List (Nat × Nat)) (c : Nat)
    (h : c ∈ parent_keys l) :
    ∃ l1 p l2, l = l1 ++ (c, p) :: l2 ∧ c ∉ parent_keys l1 := by
  induction l with
  | nil => simp [parent_keys] at h
  | cons pr l ih =>
    by_cases hc : pr.1 = c
    · refine ⟨[], pr.2, l, ?_, by simp [parent_keys]⟩
      cases pr
      simp_all
    · rw [parent_keys_cons] at h
      have h2 : c ∈ parent_keys l := by
        rcases List.mem_cons.mp h with h1 | h1
        · exact absurd h1.symm hc
        · exact h1
      obtain ⟨l1, p, l2, heq, hnot⟩ := ih h2
      refine ⟨pr :: l1, p, l2, by rw [heq, List.cons_append], ?_⟩
      rw [parent_keys_cons]
      intro hmem
      rcases List.mem_cons.mp hmem with h1 | h1
      · exact hc h1.symm
      · exact hnot h1

/-! ## Search engine invariant -/

/-- Containment laws satisfied by all three frontier policies: popping
returns a pending board and keeps only pending boards, pushing adds at
most the pushed board. -/
def StrategyLawful (S : SearchStrategy) : Prop :=
  (∀ l b l', S.getNext l = some (b, l') → b ∈ l ∧ ∀ x ∈ l', x ∈ l) ∧
    (∀ b l x, x ∈ S.enqueue b l → x = b ∨ x ∈ l)

/-- Invariant of the search loop, relative to the start board.  It ties
the parent map, the explored set and the frontier together: every parent
entry is a real move edge from an explored board, the start board never
receives a parent, every enqueued board other than the start is a parent
key, and the parent list is acyclic in the order of insertion. -/
structure SolverInv (start : Nat) (sv : Solver) : Prop where
  edges : ∀ c p, (c, p) ∈ sv.parents → ∃ d, move_space p d = MoveOutcome.moved c
  vals_checked : ∀ c p, (c, p) ∈ sv.parents → p ∈ sv.boards_checked
  start_checked : sv.parents ≠ [] → start ∈ sv.boards_checked
  start_frontier : sv.parents = [] → ∀ x ∈ sv.boards_to_check, x = start
  start_no_parent : start ∉ parent_keys sv.parents
  frontier_keys : ∀ x ∈ sv.boards_to_check, x = start ∨ x ∈ parent_keys sv.parents
  vals_keys : ∀ c p, (c, p) ∈ sv.parents → p = start ∨ p ∈ parent_keys sv.parents
  acyclic : ∀ l1 c p l2, sv.parents = l1 ++ (c, p) :: l2 →
    p ∉ parent_keys l1 ∧ p ≠ c

theorem solver_inv_init (S : SearchStrategy) (hS : StrategyLawful S)
    (start : Nat) : SolverInv start (init_search S solver_default start) := by
  refine ⟨?_, ?_, ?_, ?_, ?_, ?_, ?_, ?_⟩ <;>
    simp only [init_search, solver_default]
  · intro c p hm; simp at hm
  · intro c p hm; simp at hm
  · intro h; simp at h
  · intro _ x hx
    rcases hS.2 start [] x hx with h | h
    · exact h
    · simp at h
  · simp [parent_keys]
  · intro x hx
    rcases hS.2 start [] x hx with h | h
    · exact Or.inl h
    · simp at h
  · intro c p hm; simp at hm
  · intro l1 c p l2 heq
    exact absurd heq (by simp)

theorem process_move_inv (S : SearchStrategy) (hS : StrategyLawful S)
    (start b : Nat) (sv sv' : Solver) (d : Direction)
    (inv : SolverInv start sv)
    (hbchk : b ∈ sv.boards_checked)
    (hbkey : b = start ∨ b ∈ parent_keys sv.parents)
    (hsc : start ∈ sv.boards_checked ∨ (sv.parents = [] ∧ b = start))
    (h : process_move S sv b d = some sv') :
    SolverInv start sv' ∧ sv'.boards_checked = sv.boards_checked ∧
      (∀ x ∈ parent_keys sv.parents, x ∈ parent_keys sv'.parents) := by
  rw [process_move] at h
  cases hmv : move_space b d with
  | illegal =>
    rw [hmv] at h
    have hsv : sv' = sv := by injection h with h1; exact h1.symm
    subst hsv
    exact ⟨inv, rfl, fun x hx => hx⟩
  | panicked => rw [hmv] at h; simp at h
  | moved child =>
    rw [hmv] at h
    dsimp only at h
    by_cases hchk : child ∈ sv.boards_checked
    · rw [if_pos hchk] at h
      injection h with h1
      subst h1
      refine ⟨⟨inv.edges, inv.vals_checked, inv.start_checked,
        inv.start_frontier, inv.start_no_parent, inv.frontier_keys,
        inv.vals_keys, inv.acyclic⟩, rfl, fun x hx => hx⟩
    · rw [if_neg hchk] at h
      injection h with h1
      subst h1
      have hstart_chk : start ∈ sv.boards_checked := by
        rcases hsc with h1 | ⟨h1, h2⟩
        · exact h1
        · rw [h2] at hbchk; exact hbchk
      have hchne : child ≠ start := fun heq => hchk (heq ▸ hstart_chk)
      have hbne : b ≠ child := fun heq => hchk (heq ▸ hbchk)
      simp only [enqueue_successor]
      refine ⟨⟨?_, ?_, ?_, ?_, ?_, ?_, ?_, ?_⟩, trivial, ?_⟩
      · intro c p hm
        rcases List.mem_cons.mp hm with h1 | h1
        · simp only [Prod.mk.injEq] at h1
          rw [h1.1, h1.2]
          exact ⟨d, hmv⟩
        · exact inv.edges c p h1
      · intro c p hm
        rcases List.mem_cons.mp hm with h1 | h1
        · simp only [Prod.mk.injEq] at h1
          rw [h1.2]
          exact hbchk
        · exact inv.vals_checked c p h1
      · intro _
        exact hstart_chk
      · intro hnil
        exact absurd hnil (by simp)
      · rw [parent_keys_cons]
        intro hmem
        rcases List.mem_cons.mp hmem with h1 | h1
        · exact hchne h1.symm
        · exact inv.start_no_parent h1
      · intro x hx
        rcases hS.2 child sv.boards_to_check x hx with h1 | h1
        · right
          rw [parent_keys_cons, h1]
          exact List.mem_cons_self _ _
        · rcases inv.frontier_keys x h1 with h2 | h2
          · exact Or.inl h2
          · right
            rw [parent_keys_cons]
            exact List.mem_cons_of_mem _ h2
      · intro c p hm
        rcases List.mem_cons.mp hm with h1 | h1
        · simp only [Prod.mk.injEq] at h1
          rw [h1.2]
          rcases hbkey with h2 | h2
          · exact Or.inl h2
          · right
            rw [parent_keys_cons]
            exact List.mem_cons_of_mem _ h2
        · rcases inv.vals_keys c p h1 with h2 | h2
          · exact Or.inl h2
          · right
            rw [parent_keys_cons]
            exact List.mem_cons_of_mem _ h2
      · intro l1 c p l2 heq
        cases l1 with
        | nil =>
          simp only [List.nil_append, List.cons.injEq] at heq
          obtain ⟨hpair, hrest⟩ := heq
          simp only [Prod.mk.injEq] at hpair
          obtain ⟨hc1, hb1⟩ := hpair
          subst hc1
          subst hb1
          exact ⟨by simp [parent_keys], hbne⟩
        | cons q l1' =>
          simp only [List.cons_append, List.cons.injEq] at heq
          obtain ⟨hq, hrest⟩ := heq
          obtain ⟨hnin, hne⟩ := inv.acyclic l1' c p l2 hrest
          have hmemcp : (c, p) ∈ sv.parents := by
            rw [hrest]
            exact List.mem_append_right l1' (List.mem_cons_self _ _)
          have hpchk : p ∈ sv.boards_checked := inv.vals_checked c p hmemcp
          have hpch : p ≠ child := fun heq2 => hchk (heq2 ▸ hpchk)
          refine ⟨?_, hne⟩
          rw [parent_keys_cons]
          intro hmem
          rcases List.mem_cons.mp hmem with h1 | h1
          · rw [← hq] at h1
            exact hpch h1
          · exact hnin h1
      · intro x hx
        rw [parent_keys_cons]
        exact List.mem_cons_of_mem _ hx

theorem foldlM_moves_inv (S : SearchStrategy) (hS : StrategyLawful S)
    (start b : Nat) (l : List Direction) :
    ∀ (sv sv' : Solver),
      SolverInv start sv →
      b ∈ sv.boards_checked →
      (b = start ∨ b ∈ parent_keys sv.parents) →
      (start ∈ sv.boards_checked ∨ (sv.parents = [] ∧ b = start)) →
      l.foldlM (fun s d => process_move S s b d) sv = some sv' →
      SolverInv start sv' := by
  induction l with
  | nil =>
    intro sv sv' inv _ _ _ h
    simp only [List.foldlM_nil] at h
    injection h with h1
    rw [← h1]
    exact inv
  | cons d ds ih =>
    intro sv sv' inv hbchk hbkey hsc h
    rw [List.foldlM_cons] at h
    cases hp : process_move S sv b d with
    | none => rw [hp] at h; simp at h
    | some sv1 =>
      rw [hp] at h
      have h2 : ds.foldlM (fun s d => process_move S s b d) sv1 = some sv' := h
      obtain ⟨inv1, hchkeq, hkeysub⟩ :=
        process_move_inv S hS start b sv sv1 d inv hbchk hbkey hsc hp
      refine ih sv1 sv' inv1 ?_ ?_ ?_ h2
      · rw [hchkeq]; exact hbchk
      · rcases hbkey with h1 | h1
        · exact Or.inl h1
        · exact Or.inr (hkeysub b h1)
      · left
        rw [hchkeq]
        rcases hsc with h1 | ⟨h1, h2⟩
        · exact h1
        · rw [← h2]; exact hbchk

theorem solve_loop_inv (S : SearchStrategy) (hS : StrategyLawful S)
    (start : Nat) :
    ∀ fuel (sv svF : Solver) (b : Nat),
      SolverInv start sv →
      solve_loop S fuel sv = some (some b, svF) →
      SolverInv start svF ∧ is_solved b = true ∧
        (b = start ∨ b ∈ parent_keys svF.parents) := by
  intro fuel
  induction fuel with
  | zero =>
    intro sv svF b _ h
    simp [solve_loop] at h
  | succ n ih =>
    intro sv svF b inv h
    rw [solve_loop] at h
    cases hget : S.getNext sv.boards_to_check with
    | none =>
      rw [hget] at h
      simp at h
    | some pr =>
      obtain ⟨board, rest⟩ := pr
      rw [hget] at h
      dsimp only at h
      obtain ⟨hmem, hrest⟩ := hS.1 _ _ _ hget
      have inv1 : SolverInv start { sv with
          boards_to_check := rest,
          boards_checked := board :: sv.boards_checked,
          to_check_size := sv.to_check_size ++ [S.len rest] } := by
        refine ⟨inv.edges, ?_, ?_, ?_, inv.start_no_parent, ?_, inv.vals_keys,
          inv.acyclic⟩
        · intro c p hm
          exact List.mem_cons_of_mem _ (inv.vals_checked c p hm)
        · intro hne
          exact List.mem_cons_of_mem _ (inv.start_checked hne)
        · intro hpar x hx
          exact inv.start_frontier hpar x (hrest x hx)
        · intro x hx
          exact inv.frontier_keys x (hrest x hx)
      have hbchk1 : board ∈ board :: sv.boards_checked := List.mem_cons_self _ _
      have hbkey1 : board = start ∨ board ∈ parent_keys sv.parents :=
        inv.frontier_keys board hmem
      have hsc1 : start ∈ board :: sv.boards_checked ∨
          (sv.parents = [] ∧ board = start) := by
        by_cases hpar : sv.parents = []
        · exact Or.inr ⟨hpar, inv.start_frontier hpar board hmem⟩
        · exact Or.inl (List.mem_cons_of_mem _ (inv.start_checked hpar))
      by_cases hsol : is_solved board = true
      · rw [if_pos hsol] at h
        injection h with h1
        simp only [Prod.mk.injEq] at h1
        obtain ⟨hb1, hsv1⟩ := h1
        injection hb1 with hb2
        subst hb2
        subst hsv1
        exact ⟨inv1, hsol, hbkey1⟩
      · rw [if_neg hsol] at h
        cases hexp : expand_neighbors S { sv with
            boards_to_check := rest,
            boards_checked := board :: sv.boards_checked,
            to_check_size := sv.to_check_size ++ [S.len rest] } board with
        | none => rw [hexp] at h; simp at h
        | some sv2 =>
          rw [hexp] at h
          rw [expand_neighbors] at hexp
          have inv2 := foldlM_moves_inv S hS start board ALL_DIRECTIONS _ sv2
            inv1 hbchk1 hbkey1 hsc1 hexp
          exact ih sv2 svF b inv2 h

theorem sbs_aux_ok (parents : List (Nat × Nat)) (start : Nat)
    (hacy : ∀ l1 c p l2, parents = l1 ++ (c, p) :: l2 →
      p ∉ parent_keys l1 ∧ p ≠ c)
    (hvals : ∀ c p, (c, p) ∈ parents → p = start ∨ p ∈ parent_keys parents)
    (hstart : start ∉ parent_keys parents)
    (hedges : ∀ c p, (c, p) ∈ parents →
      ∃ d, move_space p d = MoveOutcome.moved c) :
    ∀ fuel c acc,
      ((c = start ∧ 1 ≤ fuel) ∨
        (∃ l1 p l2, parents = l1 ++ (c, p) :: l2 ∧ c ∉ parent_keys l1 ∧
          l2.length + 2 ≤ fuel)) →
      acc ≠ [] →
      acc.head? = some c →
      List.Chain' (fun x y => ∃ d, move_space x d = MoveOutcome.moved y) acc →
      ∃ res, step_by_step_aux parents fuel c acc = some res ∧
        res.head? = some start ∧
        List.Chain' (fun x y => ∃ d, move_space x d = MoveOutcome.moved y) res ∧
        res.getLast? = acc.getLast? := by
  intro fuel
  induction fuel with
  | zero =>
    intro c acc hc _ _ _
    rcases hc with ⟨_, h1⟩ | ⟨l1, p, l2, _, _, h1⟩ <;> omega
  | succ m ih =>
    intro c acc hc hne hhead hchain
    rw [step_by_step_aux]
    cases hmg : map_get parents c with
    | none =>
      have hcs : c = start := by
        rcases hc with ⟨h1, _⟩ | ⟨l1, p, l2, hdec, hnotin, _⟩
        · exact h1
        · exfalso
          have hmemk : c ∈ parent_keys parents := by
            rw [hdec, parent_keys_append, parent_keys_cons]
            exact List.mem_append_right _ (List.mem_cons_self _ _)
          exact ((map_get_eq_none_iff parents c).mp hmg) hmemk
      exact ⟨acc, rfl, by rw [hhead, hcs], hchain, rfl⟩
    | some p =>
      have hcdec : ∃ l1 l2, parents = l1 ++ (c, p) :: l2 ∧
          c ∉ parent_keys l1 ∧ l2.length + 2 ≤ m + 1 := by
        rcases hc with ⟨h1, _⟩ | ⟨l1, p', l2, hdec, hnotin, hlen⟩
        · exfalso
          rw [h1, (map_get_eq_none_iff parents start).mpr hstart] at hmg
          exact Option.noConfusion hmg
        · have hfirst := map_get_first l1 c p' l2 hnotin
          rw [hdec, hfirst] at hmg
          injection hmg with hmg2
          subst hmg2
          exact ⟨l1, l2, hdec, hnotin, hlen⟩
      obtain ⟨l1, l2, hdec, hnotin, hlen⟩ := hcdec
      have hmemcp : (c, p) ∈ parents := by
        rw [hdec]
        exact List.mem_append_right _ (List.mem_cons_self _ _)
      have hedge : ∃ d, move_space p d = MoveOutcome.moved c := hedges c p hmemcp
      have hpc : (p = start ∧ 1 ≤ m) ∨
          (∃ m1 q m2, parents = m1 ++ (p, q) :: m2 ∧ p ∉ parent_keys m1 ∧
            m2.length + 2 ≤ m) := by
        obtain ⟨hpnotin1, hpne⟩ := hacy l1 c p l2 hdec
        rcases hvals c p hmemcp with h1 | h1
        · exact Or.inl ⟨h1, by omega⟩
        · right
          have hpl2 : p ∈ parent_keys l2 := by
            rw [hdec, parent_keys_append, parent_keys_cons] at h1
            rcases List.mem_append.mp h1 with h2 | h2
            · exact absurd h2 hpnotin1
            · rcases List.mem_cons.mp h2 with h3 | h3
              · exact absurd h3 hpne
              · exact h3
          obtain ⟨m1', q, m2', hdec2, hnotin2⟩ := first_key_decomp l2 p hpl2
          refine ⟨l1 ++ (c, p) :: m1', q, m2', ?_, ?_, ?_⟩
          · rw [hdec, hdec2]
            simp
          · rw [parent_keys_append, parent_keys_cons]
            intro hmem
            rcases List.mem_append.mp hmem with h2 | h2
            · exact hpnotin1 h2
            · rcases List.mem_cons.mp h2 with h3 | h3
              · exact hpne h3
              · exact hnotin2 h3
          · have hl2 : l2.length = m1'.length + 1 + m2'.length := by
              rw [hdec2]
              simp
              omega
            omega
      have hchain2 : List.Chain'
          (fun x y => ∃ d, move_space x d = MoveOutcome.moved y) (p :: acc) := by
        rw [List.chain'_cons']
        refine ⟨?_, hchain⟩
        intro y hy
        rw [hhead, Option.mem_some_iff] at hy
        subst hy
        exact hedge
      obtain ⟨res, hres, hresh, hresc, hresl⟩ :=
        ih p (p :: acc) hpc (by simp) rfl hchain2
      refine ⟨res, hres, hresh, hresc, ?_⟩
      rw [hresl]
      cases acc with
      | nil => exact absurd rfl hne
      | cons a as => rw [List.getLast?_cons_cons]

/-! ## Encoding and decoding round trip -/

theorem from_arr_foldl_not_mem (l : List (Nat × Nat)) (b v : Nat) (hv : v < 8)
    (hpos : ∀ pv ∈ l, pv.1 < 16) (hval : ∀ pv ∈ l, pv.2 ≤ 8)
    (hne : ∀ pv ∈ l, pv.2 ≠ v + 1) :
    get_pos (l.foldl
      (fun bb pv => if pv.2 ≠ 0 then set_value bb pv.1 (pv.2 - 1) else bb) b) v
      = get_pos b v := by
  induction l generalizing b with
  | nil => rfl
  | cons pv rest ih =>
    rw [List.foldl_cons]
    rw [ih _ (fun x hx => hpos x (List.mem_cons_of_mem _ hx))
      (fun x hx => hval x (List.mem_cons_of_mem _ hx))
      (fun x hx => hne x (List.mem_cons_of_mem _ hx))]
    by_cases h0 : pv.2 ≠ 0
    · rw [if_pos h0]
      have hp16 : pv.1 < 16 := hpos pv (List.mem_cons_self _ _)
      have hv8 : pv.2 - 1 < 8 := by
        have := hval pv (List.mem_cons_self _ _)
        omega
      have hvne : v ≠ pv.2 - 1 := by
        have := hne pv (List.mem_cons_self _ _)
        omega
      exact get_pos_set_value_ne b pv.1 (pv.2 - 1) v hp16 hv8 hv hvne
    · rw [if_neg h0]

theorem from_arr_foldl_found (l1 l2 : List (Nat × Nat)) (b v p : Nat)
    (hv : v < 8) (hp : p < 16)
    (hpos : ∀ pv ∈ l2, pv.1 < 16) (hval : ∀ pv ∈ l2, pv.2 ≤ 8)
    (hne : ∀ pv ∈ l2, pv.2 ≠ v + 1) :
    get_pos ((l1 ++ (p, v + 1) :: l2).foldl
      (fun bb pv => if pv.2 ≠ 0 then set_value bb pv.1 (pv.2 - 1) else bb) b) v
      = p := by
  rw [List.foldl_append, List.foldl_cons]
  rw [if_pos (by simp)]
  rw [from_arr_foldl_not_mem l2 _ v hv hpos hval hne]
  simp only [Nat.add_sub_cancel]
  exact get_pos_set_value_self _ p v hp hv

theorem get_pos_from_arr (arr : List Nat) (hperm : arr.Perm (List.range 9))
    (v i : Nat) (hv : v < 8) (hi : arr.get? i = some (v + 1)) :
    get_pos (from_arr arr) v = i := by
  have hmem : (i, v + 1) ∈ arr.enum := List.mem_enum_iff_get?.mpr hi
  obtain ⟨l1, l2, hdec⟩ := List.append_of_mem hmem
  have hlen : arr.length = 9 := by rw [hperm.length_eq]; simp
  have hilen : i < arr.length := by
    by_contra hge
    rw [List.get?_eq_none.mpr (by omega)] at hi
    exact Option.noConfusion hi
  have hvals : ∀ pv ∈ arr.enum, pv.2 ≤ 8 := by
    intro pv hpv
    rw [List.mem_enum_iff_get?] at hpv
    have hmem2 : pv.2 ∈ arr := List.get?_mem hpv
    have := List.mem_range.mp (hperm.mem_iff.mp hmem2)
    omega
  have hpos : ∀ pv ∈ arr.enum, pv.1 < 16 := by
    intro pv hpv
    rw [List.mem_enum_iff_get?] at hpv
    have : pv.1 < arr.length := by
      by_contra hge
      rw [List.get?_eq_none.mpr (by omega)] at hpv
      exact Option.noConfusion hpv
    omega
  have hnodup : arr.Nodup := hperm.nodup_iff.mpr (List.nodup_range 9)
  have hne : ∀ pv ∈ l2, pv.2 ≠ v + 1 := by
    intro pv hpv hcontra
    have hpvmem : pv ∈ arr.enum := by
      rw [hdec]
      exact List.mem_append_right _ (List.mem_cons_of_mem _ hpv)
    have hq : arr.get? pv.1 = some (v + 1) := by
      rw [← hcontra]
      exact List.mem_enum_iff_get?.mp hpvmem
    by_cases hip : pv.1 = i
    · have hfst : List.Nodup (List.map Prod.fst arr.enum) := by
        rw [List.enum_map_fst]
        exact List.nodup_range _
      rw [hdec, List.map_append, List.map_cons] at hfst
      have hsub : List.Nodup ((i, v + 1).1 :: List.map Prod.fst l2) :=
        (List.sublist_append_right _ _).nodup hfst
      have hnin : (i, v + 1).1 ∉ List.map Prod.fst l2 :=
        (List.nodup_cons.mp hsub).1
      exact hnin (List.mem_map.mpr ⟨pv, hpv, hip⟩)
    · have hpv1 : pv.1 < arr.length := by
        by_contra hge
        rw [List.get?_eq_none.mpr (by omega)] at hq
        exact Option.noConfusion hq
      exact hip (List.get?_inj hpv1 hnodup (hq.trans hi.symm))
  have hposl2 : ∀ pv ∈ l2, pv.1 < 16 := by
    intro pv hpv
    refine hpos pv ?_
    rw [hdec]
    exact List.mem_append_right _ (List.mem_cons_of_mem _ hpv)
  have hvalsl2 : ∀ pv ∈ l2, pv.2 ≤ 8 := by
    intro pv hpv
    refine hvals pv ?_
    rw [hdec]
    exact List.mem_append_right _ (List.mem_cons_of_mem _ hpv)
  rw [from_arr, hdec]
  exact from_arr_foldl_found l1 l2 0 v i hv (by omega) hposl2 hvalsl2 hne

theorem get_pos_from_arr_exists (arr : List Nat)
    (hperm : arr.Perm (List.range 9)) (v : Nat) (hv : v < 8) :
    ∃ j, arr.get? j = some (v + 1) ∧ get_pos (from_arr arr) v = j := by
  have hmem : v + 1 ∈ arr := hperm.mem_iff.mpr (List.mem_range.mpr (by omega))
  obtain ⟨j, hj⟩ := List.mem_iff_get?.mp hmem
  exact ⟨j, hj, get_pos_from_arr arr hperm v j hv hj⟩

theorem into_fold_length (l : List Nat) (b : Nat) (a0 : List Nat) :
    (l.foldl (fun arr v => arr.set (get_pos b v) (v + 1)) a0).length
      = a0.length := by
  induction l generalizing a0 with
  | nil => rfl
  | cons w ws ih => rw [List.foldl_cons, ih, List.length_set]

theorem into_fold_not_mem (l : List Nat) (b : Nat) (a0 : List Nat) (i : Nat)
    (h : ∀ v ∈ l, get_pos b v ≠ i) :
    (l.foldl (fun arr v => arr.set (get_pos b v) (v + 1)) a0).get? i
      = a0.get? i := by
  induction l generalizing a0 with
  | nil => rfl
  | cons w ws ih =>
    rw [List.foldl_cons, ih _ (fun x hx => h x (List.mem_cons_of_mem _ hx))]
    exact List.get?_set_ne _ _ (h w (List.mem_cons_self _ _))

theorem into_fold_found (l : List Nat) (b : Nat) (a0 : List Nat) (i v : Nat)
    (hnodup : l.Nodup) (hv : v ∈ l) (hg : get_pos b v = i)
    (huniq : ∀ w ∈ l, get_pos b w = i → w = v) (hlen : i < a0.length) :
    (l.foldl (fun arr v => arr.set (get_pos b v) (v + 1)) a0).get? i
      = some (v + 1) := by
  induction l generalizing a0 with
  | nil => simp at hv
  | cons w ws ih =>
    rw [List.foldl_cons]
    rcases List.mem_cons.mp hv with hveq | hvin
    · subst hveq
      have hnone : ∀ u ∈ ws, get_pos b u ≠ i := by
        intro u hu hcontra
        have hu2 := huniq u (List.mem_cons_of_mem _ hu) hcontra
        rw [hu2] at hu
        exact (List.nodup_cons.mp hnodup).1 hu
      rw [into_fold_not_mem ws b _ i hnone, hg, List.get?_set_eq,
        List.get?_eq_get hlen]
      rfl
    · have hwv : w ≠ v := fun heq => (List.nodup_cons.mp hnodup).1 (heq ▸ hvin)
      have hwi : get_pos b w ≠ i :=
        fun hcon => hwv (huniq w (List.mem_cons_self _ _) hcon)
      exact ih (a0.set (get_pos b w) (w + 1)) (List.nodup_cons.mp hnodup).2 hvin
        (fun u hu hc => huniq u (List.mem_cons_of_mem _ hu) hc)
        (by rw [List.length_set]; exact hlen)

/-! ## Claim theorems -/

/-- C1 (amended): the canonical goal state produced by the default
constructor is the spiral grid [1 2 3 / 8 _ 4 / 7 6 5] with the empty
cell in the center (not the row-major 1..8 grid with the empty cell
last), and is_solved holds exactly for that configuration. -/
theorem goal_state_spec :
    into_arr board_default = [1, 2, 3, 8, 0, 4, 7, 6, 5] ∧
      (∀ b, is_solved b = true ↔ b = board_default) := by
  refine ⟨by decide, fun b => ?_⟩
  rw [is_solved, board_default]
  exact beq_iff_eq

/-- C1 witness: the default board itself satisfies the solved test. -/
theorem goal_state_spec_witness : is_solved board_default = true :=
  (goal_state_spec.2 board_default).mpr rfl

/-- C1 counterexample: the row-major grid 1..8 with the empty cell last
is NOT the solved state of this program, and the default board does not
decode to it. -/
theorem goal_state_claim_counterexample :
    is_solved (from_arr [1, 2, 3, 4, 5, 6, 7, 8, 0]) = false ∧
      into_arr board_default ≠ [1, 2, 3, 4, 5, 6, 7, 8, 0] := by
  decide

/-- C2 (code demonstration): the frontier the solver can instantiate
holds plain boards, whose ordering (impl Ord for Board) compares
heuristic values only.  At the failing input the pop returns the board
with smaller heuristic although its f = g + h total cost (the key of
the unused BoardWithSteps ordering) is strictly larger: board 913855040
has heuristic 1 at depth 10 (total 11), board 913855041 has heuristic 2
at depth 0 (total 2). -/
theorem board_ordering_ignores_steps :
    heuristic_get_next [913855040, 913855041] = some (913855040, [913855041]) ∧
      board_cmp 913855040 913855041 = Ordering.lt ∧
      board_with_steps_cmp (913855040, 10) (913855041, 0) = Ordering.gt := by
  decide

/-- C3 (amended): initializing a search enqueues the start board and
records its depth as 0, and leaves every other field of the solver
untouched; in particular it does NOT clear the parent map, the explored
set, or the counters (they are empty or zero only because the solver
was just default-constructed). -/
theorem init_search_spec (S : SearchStrategy) (sv : Solver) (start : Nat) :
    (init_search S sv start).parents = sv.parents ∧
      (init_search S sv start).boards_checked = sv.boards_checked ∧
      (init_search S sv start).generated_nodes = sv.generated_nodes ∧
      (init_search S sv start).enqueued_nodes = sv.enqueued_nodes ∧
      (init_search S sv start).duplicates_pruned = sv.duplicates_pruned ∧
      (init_search S sv start).max_depth_reached = sv.max_depth_reached ∧
      (init_search S sv start).to_check_size = sv.to_check_size ∧
      (init_search S sv start).boards_to_check
        = S.enqueue start sv.boards_to_check ∧
      map_get (init_search S sv start).depth_by_board start = some 0 := by
  refine ⟨rfl, rfl, rfl, rfl, rfl, rfl, rfl, rfl, ?_⟩
  simp [init_search, map_get]

/-- Solver state with leftover bookkeeping from an earlier run, used to
test the initialization claim. -/
def dirty_solver : Solver :=
  { solver_default with
    parents := [(1, 2)]
    generated_nodes := 5
    boards_checked := [3] }

/-- C3 counterexample: on a solver whose bookkeeping is not empty,
init_search leaves the old parent map, explored set and counters in
place, contradicting the claim that they are empty or zero after
initialization. -/
theorem init_search_no_clear_counterexample :
    (init_search bfs_strategy dirty_solver 7).parents ≠ [] ∧
      (init_search bfs_strategy dirty_solver 7).generated_nodes ≠ 0 ∧
      (init_search bfs_strategy dirty_solver 7).boards_checked ≠ [] := by
  decide

/-- C5: the heuristic is the sum over the eight labels of the Manhattan
distance (row distance plus column distance) between the current cell
and the goal cell of that label; it is 0 on the goal, and every board
reachable from the goal in k moves has heuristic at most k
(admissibility). -/
theorem heuristic_admissible :
    (∀ b, heuristic_distance_to_solution b =
      ((List.range 8).map (fun v =>
        abs_diff (get_pos b v / 3) (get_pos board_default v / 3) +
          abs_diff (get_pos b v % 3) (get_pos board_default v % 3))).sum) ∧
      heuristic_distance_to_solution board_default = 0 ∧
      (∀ k b, ReachableIn k b → heuristic_distance_to_solution b ≤ k) := by
  refine ⟨fun b => ?_, by decide, fun k b h => (reachable_valid_bound k b h).2⟩
  rw [heuristic_distance_to_solution, foldl_add_eq, Nat.zero_add]
  congr 1
  refine List.map_congr_left fun v hv => ?_
  rw [manhattan_distance, BOARD_SIDE]
  exact Nat.add_comm _ _

/-- C5 witness: the board one Up move away from the goal has heuristic
at most 1. -/
theorem heuristic_admissible_witness :
    ∃ c, move_space SOLVED_BOARD_ENCODED Direction.Up = MoveOutcome.moved c ∧
      heuristic_distance_to_solution c ≤ 1 :=
  ⟨_, rfl, heuristic_admissible.2.2 1 _
    (@ReachableIn.step 0 SOLVED_BOARD_ENCODED _ Direction.Up
      ReachableIn.base rfl)⟩

/-- C6: on a well-formed board, a successful move followed by the
opposite direction returns exactly the original board. -/
theorem move_reversibility (b c : Nat) (d : Direction) (hb : ValidBoard b)
    (h : move_space b d = MoveOutcome.moved c) :
    move_space c (opposite d) = MoveOutcome.moved b :=
  move_space_reverse b c d hb h

/-- C6 witness: moving the empty cell Up from the goal and then Down
returns the goal. -/
theorem move_reversibility_witness :
    move_space 913855040 (opposite Direction.Up)
      = MoveOutcome.moved SOLVED_BOARD_ENCODED :=
  move_reversibility SOLVED_BOARD_ENCODED 913855040 Direction.Up (by decide) rfl

/-- C7: on a well-formed board, move_space returns the illegal-move
error exactly when the direction is not among the legal moves of the
current empty cell, and it never hits the internal panic.  The Rust
receiver is taken by value (Board is Copy), so the original value is
unchanged by construction, which the pure embedding reflects. -/
theorem apply_error_iff (b : Nat) (d : Direction) (hb : ValidBoard b) :
    (move_space b d = MoveOutcome.illegal ↔ d ∉ legal_moves b) ∧
      move_space b d ≠ MoveOutcome.panicked := by
  refine ⟨?_, move_space_not_panicked b d hb⟩
  rw [move_space_illegal_iff]
  rw [legal_moves, List.mem_filter]
  have hall : d ∈ ALL_DIRECTIONS := by cases d <;> simp [ALL_DIRECTIONS]
  constructor
  · intro hfalse hmem
    rw [hmem.2] at hfalse
    exact Bool.noConfusion hfalse
  · intro hnot
    cases hvm : is_valid_movement (find_space_position b) d
    · rfl
    · exact absurd ⟨hall, hvm⟩ hnot

/-- C7 witness: from the goal board, every direction is legal and Up
produces no error. -/
theorem apply_error_iff_witness :
    (move_space SOLVED_BOARD_ENCODED Direction.Up = MoveOutcome.illegal ↔
      Direction.Up ∉ legal_moves SOLVED_BOARD_ENCODED) ∧
      move_space SOLVED_BOARD_ENCODED Direction.Up ≠ MoveOutcome.panicked :=
  apply_error_iff SOLVED_BOARD_ENCODED Direction.Up (by decide)

/-- C8: on a well-formed board the number of legal moves is 2 when the
empty cell is in a corner (cells 0, 2, 6, 8), 3 when it is on a
non-corner border cell (cells 1, 3, 5, 7) and 4 in the center (cell 4). -/
theorem legal_move_count (b : Nat) (hb : ValidBoard b) :
    (find_space_position b ∈ [0, 2, 6, 8] → (legal_moves b).length = 2) ∧
      (find_space_position b ∈ [1, 3, 5, 7] → (legal_moves b).length = 3) ∧
      (find_space_position b = 4 → (legal_moves b).length = 4) := by
  have hs9 : find_space_position b < 9 := (find_space_spec b hb).1
  have hgen : ∀ s, s < 9 →
      (s ∈ [0, 2, 6, 8] →
        (ALL_DIRECTIONS.filter (fun d => is_valid_movement s d)).length = 2) ∧
      (s ∈ [1, 3, 5, 7] →
        (ALL_DIRECTIONS.filter (fun d => is_valid_movement s d)).length = 3) ∧
      (s = 4 →
        (ALL_DIRECTIONS.filter (fun d => is_valid_movement s d)).length = 4) := by
    decide
  rw [legal_moves]
  exact hgen (find_space_position b) hs9

/-- C8 witness: the goal board has its empty cell in the center and four
legal moves. -/
theorem legal_move_count_witness :
    (legal_moves SOLVED_BOARD_ENCODED).length = 4 :=
  (legal_move_count SOLVED_BOARD_ENCODED (by decide)).2.2 (by decide)

/-- C9: during expansion, a successfully generated neighbor not yet in
the explored set is enqueued with its parent recorded as the popped
board, its depth recorded as the parent depth plus one, the running
maximum depth updated, and the enqueued counter incremented; a generated
neighbor already explored only bumps the duplicates-pruned counter (the
generated counter is bumped in both branches).  The statement holds for
every solver state, whatever the frontier contains: membership in the
frontier is never consulted. -/
theorem expansion_bookkeeping (S : SearchStrategy) (sv : Solver)
    (parent child : Nat) (d : Direction)
    (h : move_space parent d = MoveOutcome.moved child) :
    (child ∉ sv.boards_checked →
      process_move S sv parent d = some { sv with
        generated_nodes := sv.generated_nodes + 1,
        boards_to_check := S.enqueue child sv.boards_to_check,
        enqueued_nodes := sv.enqueued_nodes + 1,
        parents := (child, parent) :: sv.parents,
        depth_by_board :=
          (child, (map_get sv.depth_by_board parent).getD 0 + 1)
            :: sv.depth_by_board,
        max_depth_reached :=
          if (map_get sv.depth_by_board parent).getD 0 + 1
              > sv.max_depth_reached
          then (map_get sv.depth_by_board parent).getD 0 + 1
          else sv.max_depth_reached } ∧
      map_get ((child, parent) :: sv.parents) child = some parent ∧
      map_get ((child, (map_get sv.depth_by_board parent).getD 0 + 1)
          :: sv.depth_by_board) child
        = some ((map_get sv.depth_by_board parent).getD 0 + 1)) ∧
    (child ∈ sv.boards_checked →
      process_move S sv parent d = some { sv with
        generated_nodes := sv.generated_nodes + 1,
        duplicates_pruned := sv.duplicates_pruned + 1 }) := by
  constructor
  · intro hnot
    refine ⟨?_, by simp [map_get], by simp [map_get]⟩
    rw [process_move, h]
    dsimp only
    rw [if_neg hnot]
    rfl
  · intro hmem
    rw [process_move, h]
    dsimp only
    rw [if_pos hmem]

/-- C9 witness: expanding the goal board with the Up move on a fresh
solver records the parent link, depth 1, and one enqueued node. -/
theorem expansion_bookkeeping_witness :
    ∃ r, process_move bfs_strategy solver_default SOLVED_BOARD_ENCODED
        Direction.Up = some r ∧
      map_get r.parents 913855040 = some SOLVED_BOARD_ENCODED ∧
      map_get r.depth_by_board 913855040 = some 1 ∧
      r.enqueued_nodes = 1 ∧ r.generated_nodes = 1 ∧
      r.duplicates_pruned = 0 := by
  have h := (expansion_bookkeeping bfs_strategy solver_default
    SOLVED_BOARD_ENCODED 913855040 Direction.Up rfl).1 (by decide)
  exact ⟨_, h.1, by decide, by decide, rfl, rfl, rfl⟩

/-- C10: encoding a 9-cell permutation of the values 0..8 and decoding
it again returns the original array. -/
theorem into_from_arr_round_trip (arr : List Nat)
    (hperm : arr.Perm (List.range 9)) : into_arr (from_arr arr) = arr := by
  have hlen : arr.length = 9 := by rw [hperm.length_eq]; simp
  have hnodup : arr.Nodup := hperm.nodup_iff.mpr (List.nodup_range 9)
  refine List.ext fun i => ?_
  by_cases hi9 : i < 9
  · have hisome : ∃ x, arr.get? i = some x := by
      have hil : i < arr.length := by omega
      exact ⟨arr.get ⟨i, hil⟩, List.get?_eq_get hil⟩
    obtain ⟨x, hx⟩ := hisome
    have hx9 : x < 9 := by
      have hxmem : x ∈ arr := List.get?_mem hx
      have := List.mem_range.mp (hperm.mem_iff.mp hxmem)
      omega
    rw [into_arr]
    cases x with
    | zero =>
      have hnone : ∀ v ∈ List.range 8, get_pos (from_arr arr) v ≠ i := by
        intro v hv hcon
        have hv8 := List.mem_range.mp hv
        obtain ⟨j, hj, hgp⟩ := get_pos_from_arr_exists arr hperm v hv8
        rw [hgp] at hcon
        subst hcon
        rw [hx] at hj
        injection hj with hj2
        omega
      rw [into_fold_not_mem _ _ _ _ hnone, hx]
      have hrep : (List.replicate 9 (0 : Nat)).get? i = some 0 := by
        interval_cases i <;> rfl
      rw [hrep]
    | succ w =>
      have hw8 : w < 8 := by omega
      have hj : get_pos (from_arr arr) w = i :=
        get_pos_from_arr arr hperm w i hw8 hx
      have huniq : ∀ u ∈ List.range 8, get_pos (from_arr arr) u = i → u = w := by
        intro u hu hcon
        have hu8 := List.mem_range.mp hu
        obtain ⟨j, hju, hgp⟩ := get_pos_from_arr_exists arr hperm u hu8
        rw [hgp] at hcon
        subst hcon
        rw [hx] at hju
        injection hju with hj2
        omega
      rw [into_fold_found (List.range 8) (from_arr arr) (List.replicate 9 0)
        i w (List.nodup_range 8) (List.mem_range.mpr hw8) hj huniq
        (by simp only [List.length_replicate]; omega), hx]
  · have hlen1 : ((List.range 8).foldl
        (fun a v => a.set (get_pos (from_arr arr) v) (v + 1))
        (List.replicate 9 (0 : Nat))).length ≤ i := by
      rw [into_fold_length]
      simp only [List.length_replicate]
      omega
    rw [into_arr, List.get?_eq_none.mpr hlen1,
      List.get?_eq_none.mpr (by omega)]

/-- C10 witness: the round trip at the spiral goal layout. -/
theorem into_from_arr_round_trip_witness :
    into_arr (from_arr [1, 2, 3, 8, 0, 4, 7, 6, 5])
      = [1, 2, 3, 8, 0, 4, 7, 6, 5] :=
  into_from_arr_round_trip [1, 2, 3, 8, 0, 4, 7, 6, 5] (by decide)

/-- C4: any run of the search engine that terminates with a solution
yields, through the parent chain, a reconstruction in which consecutive
boards differ by exactly one successful (legal) move, the first board is
the original start, and the last board satisfies the solved predicate.
The frontier policy is arbitrary subject to the containment laws that
all three policies of the program satisfy. -/
theorem solve_path_valid (S : SearchStrategy)
    (hget : ∀ l b l', S.getNext l = some (b, l') → b ∈ l ∧ ∀ x ∈ l', x ∈ l)
    (henq : ∀ b l x, x ∈ S.enqueue b l → x = b ∨ x ∈ l)
    (fuel : Nat) (start b : Nat) (svF : Solver)
    (h : solve S fuel solver_default start = some (some b, svF)) :
    ∃ path, step_by_step_solution svF = some path ∧
      path.head? = some start ∧
      List.Chain' (fun x y => ∃ d, move_space x d = MoveOutcome.moved y) path ∧
      ∃ g, path.getLast? = some g ∧ is_solved g = true := by
  have hS : StrategyLawful S := ⟨hget, henq⟩
  rw [solve] at h
  obtain ⟨invF, hsol, hkey⟩ := solve_loop_inv S hS start fuel
    (init_search S solver_default start) svF b
    (solver_inv_init S hS start) h
  have hbd : b = board_default := by
    rw [is_solved] at hsol
    rw [board_default]
    exact beq_iff_eq.mp hsol
  rw [step_by_step_solution]
  have hc : (board_default = start ∧ 1 ≤ svF.parents.length + 1) ∨
      (∃ l1 p l2, svF.parents = l1 ++ (board_default, p) :: l2 ∧
        board_default ∉ parent_keys l1 ∧
        l2.length + 2 ≤ svF.parents.length + 1) := by
    rcases hkey with h1 | h1
    · left
      rw [← hbd]
      exact ⟨h1, by omega⟩
    · right
      rw [hbd] at h1
      obtain ⟨l1, p, l2, hdec, hni⟩ := first_key_decomp _ _ h1
      refine ⟨l1, p, l2, hdec, hni, ?_⟩
      have hlp : svF.parents.length = l1.length + 1 + l2.length := by
        rw [hdec]
        simp
        omega
      omega
  obtain ⟨res, hres, hresh, hresc, hresl⟩ := sbs_aux_ok svF.parents start
    invF.acyclic invF.vals_keys invF.start_no_parent invF.edges
    (svF.parents.length + 1) board_default [board_default] hc
    (by simp) rfl (List.chain'_singleton _)
  refine ⟨res, hres, hresh, hresc, board_default, ?_, by decide⟩
  rw [hresl]
  rfl

/-- Containment law for popping from the breadth-first frontier. -/
theorem bfs_getNext_law : ∀ l b l', bfs_strategy.getNext l = some (b, l') →
    b ∈ l ∧ ∀ x ∈ l', x ∈ l := by
  intro l b l' h
  cases l with
  | nil => exact absurd h (by simp [bfs_strategy])
  | cons y ys =>
    rw [bfs_strategy] at h
    dsimp only at h
    injection h with h1
    simp only [Prod.mk.injEq] at h1
    obtain ⟨hb, hl⟩ := h1
    subst hb
    subst hl
    exact ⟨List.mem_cons_self _ _, fun x hx => List.mem_cons_of_mem _ hx⟩

/-- Containment law for pushing onto the breadth-first frontier. -/
theorem bfs_enqueue_law : ∀ b l x, x ∈ bfs_strategy.enqueue b l →
    x = b ∨ x ∈ l := by
  intro b l x hx
  rw [bfs_strategy] at hx
  dsimp only at hx
  rcases List.mem_append.mp hx with h1 | h1
  · exact Or.inr h1
  · left
    simpa using h1

/-- C4 witness: a breadth-first run from the board one move away from
the goal terminates with a solution whose reconstructed path starts at
the start board, follows single moves, and ends in the solved board. -/
theorem solve_path_valid_witness :
    ∃ b svF, solve bfs_strategy 10 solver_default 913855040
        = some (some b, svF) ∧
      ∃ path, step_by_step_solution svF = some path ∧
        path.head? = some 913855040 ∧
        List.Chain' (fun x y => ∃ d, move_space x d = MoveOutcome.moved y)
          path ∧
        ∃ g, path.getLast? = some g ∧ is_solved g = true :=
  ⟨_, _, rfl, solve_path_valid bfs_strategy bfs_getNext_law bfs_enqueue_law
    10 913855040 _ _ rfl⟩
